import Mathlib

/-!
Verification development for the lilua core: a single-pass expression
compiler and a register-based bytecode virtual machine.

The embedding follows the converged implementation (the first document of
src/unnamed/part_000 together with the value module src/unnamed/part_002):

* runtime values are a tagged union over Number, Boolean and Nil, with
  structural equality veq;
* JS numbers are modelled as integers (every program in scope performs
  integer arithmetic only);
* a JS null slot or field is modelled as Option.none, which is distinct
  from the runtime value Value.nil (an object with tag Nil in the source);
* a thrown JS exception is modelled as the error branch of Except, or as
  the second component of a (state, error) pair where the state at the
  moment of the throw matters;
* the mutation order of the source is preserved: every intermediate state
  of the VM or of the code generator is threaded explicitly, so an error
  result carries exactly the mutations the source had performed before
  throwing.
-/

namespace Lilua

/-- Runtime values (src/unnamed/part_002): tagged union over Num, Bool, Nil. -/
inductive Value where
  | num (value : Int)
  | bool (value : Bool)
  | nil
deriving DecidableEq

/-- Structural equality veq (src/unnamed/part_002): same tag required,
then componentwise comparison; Nil equals Nil. -/
def veq : Value → Value → Bool
  | .num a, .num b => a == b
  | .bool a, .bool b => a == b
  | .nil, .nil => true
  | _, _ => false

/-- JS accessor x.value on a checked number (read only after checkNum). -/
def Value.numValue : Value → Int
  | .num v => v
  | .bool _ => 0
  | .nil => 0

/-- Tag test used to state arithmetic type checking. -/
def Value.isNum : Value → Bool
  | .num _ => true
  | _ => false

/-- Instructions: MOVE, LOADK and ADD close over integer operands
(mkInstr / iMOVE / iLOADK / iADD in the source). -/
inductive Instr where
  | iMOVE (a b : Int)
  | iLOADK (a k : Int)
  | iADD (a b c : Int)
deriving DecidableEq

/-- The compiled artifact (class Frame in the source). -/
structure Frame where
  in_count : Nat
  out_count : Nat
  size : Nat
  consts : List Value
  locals : List String
  code : List Instr
deriving DecidableEq

/-- Frame.getInstr: null once the counter passes the end of the code. -/
def Frame.getInstr (f : Frame) (pc : Nat) : Option Instr :=
  if f.code.length ≤ pc then none else f.code[pc]?

/-- Runtime errors: each constructor is one throw site of the VM. nullDeref
stands for the JS TypeError raised when a property of null is read. -/
inductive VMError where
  | invalidRegIndex (i : Int)
  | invalidConstIndex (i : Int)
  | typeError (got : Value)
  | nullDeref
deriving DecidableEq

/-- VM state (class VM in the source). Register slots hold Option Value:
none is the JS null the constructor fills the register file with. -/
structure VM where
  fn : Frame
  regs : List (Option Value)
  stack : List Value
  pc : Nat
  regOffset : Nat
deriving DecidableEq

/-- The VM constructor: regs = Array(fn.size).fill(null), pc = 0. -/
def VM.new (fn : Frame) : VM :=
  { fn := fn, regs := List.replicate fn.size none, stack := [], pc := 0, regOffset := 0 }

/-- testRegIndex: i < 0 or i >= fn.size is a fatal error. -/
def VM.testRegIndex (vm : VM) (i : Int) : Except VMError Unit :=
  if i < 0 ∨ (vm.fn.size : Int) ≤ i then .error (.invalidRegIndex i) else .ok ()

/-- testConstIndex: decode j = -i - 1, then j < 0 or j >= consts.length
is a fatal error. -/
def VM.testConstIndex (vm : VM) (i : Int) : Except VMError Unit :=
  if -i - 1 < 0 ∨ (vm.fn.consts.length : Int) ≤ -i - 1 then .error (.invalidConstIndex i)
  else .ok ()

/-- getLocal: bounds check, then read the slot (possibly null). -/
def VM.getLocal (vm : VM) (i : Int) : Except VMError (Option Value) :=
  match vm.testRegIndex i with
  | .error e => .error e
  | .ok _ => .ok (vm.regs.getD i.toNat none)

/-- setLocal: bounds check, then overwrite the slot. -/
def VM.setLocal (vm : VM) (i : Int) (v : Option Value) : Except VMError VM :=
  match vm.testRegIndex i with
  | .error e => .error e
  | .ok _ => .ok { vm with regs := vm.regs.set i.toNat v }

/-- getConst: bounds check, then read consts[-i - 1]. -/
def VM.getConst (vm : VM) (i : Int) : Except VMError Value :=
  match vm.testConstIndex i with
  | .error e => .error e
  | .ok _ => .ok (vm.fn.consts.getD (-i - 1).toNat Value.nil)

/-- getVal: negative operand references read the constant pool, the rest
read the register file. -/
def VM.getVal (vm : VM) (i : Int) : Except VMError (Option Value) :=
  if i < 0 then (vm.getConst i).map some else vm.getLocal i

/-- checkNum: a non-Number tag is a fatal type error. The argument is the
content of a register or constant slot, so it can be the JS null; reading
the tag of null is the nullDeref error. -/
def checkNum : Option Value → Except VMError Value
  | some (.num v) => .ok (.num v)
  | some x => .error (.typeError x)
  | none => .error .nullDeref

/-- One instruction executed against a VM, following the source statement
order exactly. The returned state is the state at the moment the source
either finished (error component none) or threw (error component some e);
since every read and check precedes the register write and the counter
increment, error results return the input state untouched. -/
def Instr.run (vm : VM) : Instr → VM × Option VMError
  | .iMOVE a b =>
      match vm.getVal b with
      | .error e => (vm, some e)
      | .ok v =>
        match vm.setLocal a v with
        | .error e => (vm, some e)
        | .ok vm1 => ({ vm1 with pc := vm1.pc + 1 }, none)
  | .iLOADK a k =>
      match vm.getConst k with
      | .error e => (vm, some e)
      | .ok v =>
        match vm.setLocal a (some v) with
        | .error e => (vm, some e)
        | .ok vm1 => ({ vm1 with pc := vm1.pc + 1 }, none)
  | .iADD a b c =>
      match vm.getVal b with
      | .error e => (vm, some e)
      | .ok vb =>
        match vm.getVal c with
        | .error e => (vm, some e)
        | .ok vc =>
          match checkNum vb with
          | .error e => (vm, some e)
          | .ok _ =>
            match checkNum vc with
            | .error e => (vm, some e)
            | .ok _ =>
              match vm.setLocal a (some (.num ((vb.getD .nil).numValue + (vc.getD .nil).numValue))) with
              | .error e => (vm, some e)
              | .ok vm1 => ({ vm1 with pc := vm1.pc + 1 }, none)

/-- Result of one step() call: false (halted), true with the new state, or
a thrown error together with the state at the throw. -/
inductive StepResult where
  | halted
  | stepped (vm : VM)
  | failed (vm : VM) (e : VMError)
deriving DecidableEq

/-- step(): fetch at pc; no instruction means return false; otherwise
execute it and return true, or propagate its throw. -/
def VM.step (vm : VM) : StepResult :=
  match vm.fn.getInstr vm.pc with
  | none => .halted
  | some instr =>
      match instr.run vm with
      | (vm1, none) => .stepped vm1
      | (vm1, some e) => .failed vm1 e

/-- n consecutive step() calls that all returned true; none if any call
halted or threw before the n-th. -/
def VM.iterOk : VM → Nat → Option VM
  | vm, 0 => some vm
  | vm, n + 1 =>
      match vm.step with
      | .stepped vm1 => vm1.iterOk n
      | _ => none

/-- Operand locations the generator manipulates before register numbers are
assigned: the objects with tag temp, local or const in the source. The
const payload is the already-encoded negative operand reference. -/
inductive Loc where
  | temp (index : Nat)
  | locIdx (index : Nat)
  | constRef (value : Int)
deriving DecidableEq

/-- An entry of the accumulated code list: the record of an instruction
constructor and its argument locations, pushed by CodeGen.emit. The three
shapes are the three emit call sites of the source. -/
inductive EmitEntry where
  | move (a b : Loc)
  | loadk (a k : Loc)
  | addi (a b c : Loc)
deriving DecidableEq

/-- The argument list of an emit entry, in source order. -/
def EmitEntry.args : EmitEntry → List Loc
  | .move a b => [a, b]
  | .loadk a k => [a, k]
  | .addi a b c => [a, b, c]

/-- Generator state (class CodeGen). lhs is the current destination slot,
null initially; maxTemp starts at -1. -/
structure CodeGen where
  consts : List Value
  code : List EmitEntry
  locals : List String
  tempCount : Nat
  maxTemp : Int
  stack : List Loc
  lhs : Option Loc
deriving DecidableEq

/-- The CodeGen constructor. -/
def CodeGen.init : CodeGen :=
  { consts := [], code := [], locals := [], tempCount := 0, maxTemp := -1,
    stack := [], lhs := none }

/-- The loop emit runs over its arguments: updateMaxTemp on every temp. -/
def updMaxTemp (m : Int) : List Loc → Int
  | [] => m
  | .temp i :: rest => updMaxTemp (if m < (i : Int) then (i : Int) else m) rest
  | _ :: rest => updMaxTemp m rest

/-- emit: raise maxTemp over the temp arguments, then append the entry. -/
def CodeGen.emit (g : CodeGen) (e : EmitEntry) : CodeGen :=
  { g with maxTemp := updMaxTemp g.maxTemp e.args, code := g.code ++ [e] }

/-- The operand mapping mkFrame applies: temps live above the locals,
local indices are kept, const payloads are already encoded. -/
def mapArg (nLocals : Nat) : Loc → Int
  | .temp i => (i : Int) + nLocals
  | .locIdx i => (i : Int)
  | .constRef v => v

/-- Instantiation of one recorded entry into an instruction (the map inside
mkFrame). The unknown-type throw of the source is unrepresentable here
because Loc is a closed union. -/
def EmitEntry.finalize (nLocals : Nat) : EmitEntry → Instr
  | .move a b => .iMOVE (mapArg nLocals a) (mapArg nLocals b)
  | .loadk a k => .iLOADK (mapArg nLocals a) (mapArg nLocals k)
  | .addi a b c => .iADD (mapArg nLocals a) (mapArg nLocals b) (mapArg nLocals c)

/-- mkFrame: size = locals.length + maxTemp + 1 (a nonnegative integer
whenever maxTemp ≥ -1, which always holds), arities 0/0, the accumulated
constants and locals, and the instantiated code. -/
def CodeGen.mkFrame (g : CodeGen) : Frame :=
  { in_count := 0, out_count := 0,
    size := ((g.locals.length : Int) + g.maxTemp + 1).toNat,
    consts := g.consts, locals := g.locals,
    code := g.code.map (EmitEntry.finalize g.locals.length) }

/- AST nodes (the node catalogue: con, add, leti, vari, set, block). The
body of a block is a list, kept as a mutual inductive so every function on
nodes is structurally recursive. -/
mutual
inductive Node where
  | con (value : Value)
  | add (lhs rhs : Node)
  | leti (name : String) (value : Node)
  | vari (name : String)
  | set (name : String) (value : Node)
  | block (body : NodeList)
inductive NodeList where
  | nil
  | cons (head : Node) (tail : NodeList)
end

/-- Compile-time errors: each constructor is one throw site. popUndef and
nullOperand stand for the JS TypeError raised when a property of undefined
(pop on an empty stack) or of null (emit on a null destination) is read. -/
inductive GenError where
  | alreadyDefined (name : String)
  | notDefined (name : String)
  | emptyBlock
  | nullOperand
  | popUndef
deriving DecidableEq

/-- Index of the first list element satisfying p: the linear scans of con
(by veq), leti, vari and set (by name) in the source. -/
def firstIdx {α : Type} (p : α → Bool) : List α → Option Nat
  | [] => none
  | a :: rest => if p a then some 0 else (firstIdx p rest).map (· + 1)

/-- The conditional emission both leti and set perform on the popped value
location v with destination local i: loadk for a constant, nothing for the
destination itself, move otherwise. -/
def assignEmit (i : Nat) (v : Loc) (g3 : CodeGen) : CodeGen :=
  match v with
  | .constRef k => g3.emit (.loadk (.locIdx i) (.constRef k))
  | .locIdx j =>
      if j = i then g3 else g3.emit (.move (.locIdx i) (.locIdx j))
  | .temp j => g3.emit (.move (.locIdx i) (.temp j))

/- Code generation for one node (the gen closures of the source), threading
the generator state; genSeq is the loop body of block. The inlined
withTemp and withLHS wrappers are annotated at their use sites. -/
mutual
def genNode : Node → CodeGen → Except GenError CodeGen
  | .con value, g =>
      match firstIdx (fun c => veq c value) g.consts with
      | some i => .ok { g with stack := .constRef (-(i : Int) - 1) :: g.stack }
      | none =>
          -- pushConst inlined: append the value, reference index consts.length
          .ok { g with consts := g.consts ++ [value],
                       stack := .constRef (-(g.consts.length : Int) - 1) :: g.stack }
  | .add lhs rhs, g =>
      match genNode lhs g with
      | .error e => .error e
      | .ok g1 =>
        match g1.stack with
        | [] => .error .popUndef
        | l :: st1 =>
          match genNode rhs { g1 with stack := st1, tempCount := g1.tempCount + 1,
                                      lhs := some (.temp g1.tempCount) } with
          | .error e => .error e
          | .ok g4 =>
            match g4.stack with
            | [] => .error .popUndef
            | r :: st2 =>
              match g1.lhs with
              | none => .error .nullOperand
              | some d =>
                  let g7 := CodeGen.emit { g4 with stack := st2, lhs := g1.lhs } (.addi d l r)
                  .ok { g7 with stack := d :: g7.stack, tempCount := g7.tempCount - 1 }
  | .leti name value, g =>
      match firstIdx (fun x => x == name) g.locals with
      | some _ => .error (.alreadyDefined name)
      | none =>
        -- pushLocal inlined: the new local index is g.locals.length; the
        -- initializer runs under withLHS of that local
        match genNode value { g with locals := g.locals ++ [name],
                                     lhs := some (.locIdx g.locals.length) } with
        | .error e => .error e
        | .ok g2 =>
          match g2.stack with
          | [] => .error .popUndef
          | v :: st =>
            let g4 := assignEmit g.locals.length v { g2 with stack := st }
            .ok { g4 with stack := .locIdx g.locals.length :: g4.stack, lhs := g.lhs }
  | .vari name, g =>
      match firstIdx (fun x => x == name) g.locals with
      | some i => .ok { g with stack := .locIdx i :: g.stack }
      | none => .error (.notDefined name)
  | .set name value, g =>
      match firstIdx (fun x => x == name) g.locals with
      | none => .error (.notDefined name)
      | some i =>
        match genNode value { g with lhs := some (.locIdx i) } with
        | .error e => .error e
        | .ok g2 =>
          match g2.stack with
          | [] => .error .popUndef
          | v :: st =>
            let g4 := assignEmit i v { g2 with stack := st }
            .ok { g4 with stack := .locIdx i :: g4.stack, lhs := g.lhs }
  | .block body, g =>
      match body with
      | .nil => .error .emptyBlock
      | .cons e rest =>
        match genNode e g with
        | .error err => .error err
        | .ok g1 =>
          match g1.stack with
          | [] => .error .popUndef
          | v :: st =>
            match genSeq rest v { g1 with stack := st } with
            | .error err => .error err
            | .ok (result, g2) => .ok { g2 with stack := result :: g2.stack }
def genSeq : NodeList → Loc → CodeGen → Except GenError (Loc × CodeGen)
  | .nil, result, g => .ok (result, g)
  | .cons e rest, _, g =>
      match genNode e g with
      | .error err => .error err
      | .ok g1 =>
        match g1.stack with
        | [] => .error .popUndef
        | v :: st => genSeq rest v { g1 with stack := st }
end

/-- compile: run the walk on a fresh generator, then package the frame. -/
def compile (nd : Node) : Except GenError Frame :=
  (genNode nd CodeGen.init).map CodeGen.mkFrame

/- Well-formedness of a node tree relative to the list of locals declared
so far and to whether a destination register is currently set (dest is
whether the generator lhs field is non-null). Returns the locals list
after the walk. This is exactly error freedom of generation: no duplicate
let, no undefined var or set reference, no empty block, and no add outside
a destination context. -/
mutual
def wf : Node → List String → Bool → Option (List String)
  | .con _, ls, _ => some ls
  | .add l r, ls, dest =>
      if dest then
        match wf l ls dest with
        | some ls1 => wf r ls1 true
        | none => none
      else none
  | .leti n v, ls, _ =>
      match firstIdx (fun x => x == n) ls with
      | some _ => none
      | none => wf v (ls ++ [n]) true
  | .vari n, ls, _ =>
      match firstIdx (fun x => x == n) ls with
      | some _ => some ls
      | none => none
  | .set n v, ls, _ =>
      match firstIdx (fun x => x == n) ls with
      | some _ => wf v ls true
      | none => none
  | .block body, ls, dest =>
      match body with
      | .nil => none
      | .cons e rest =>
        match wf e ls dest with
        | some ls1 => wfSeq rest ls1 dest
        | none => none
def wfSeq : NodeList → List String → Bool → Option (List String)
  | .nil, ls, _ => some ls
  | .cons e rest, ls, dest =>
      match wf e ls dest with
      | some ls1 => wfSeq rest ls1 dest
      | none => none
end

/-- Maximum temp index referenced anywhere in a code list, starting
from -1: the quantity maxTemp tracks incrementally. -/
def codeMax (code : List EmitEntry) : Int :=
  code.foldl (fun m e => updMaxTemp m e.args) (-1)

/-- Number of distinct temporary registers the emitted code needs:
one past the largest temp index it references. -/
def peakTemps (code : List EmitEntry) : Nat :=
  (codeMax code + 1).toNat

/-- The integer operands of a finished instruction, in source order. -/
def Instr.operands : Instr → List Int
  | .iMOVE a b => [a, b]
  | .iLOADK a k => [a, k]
  | .iADD a b c => [a, b, c]

/-- One step() call viewed as a partial successor function: the new state
when it returned true, none when it halted or threw. -/
def stepOnce (v : VM) : Option VM :=
  match v.step with
  | .stepped v1 => some v1
  | _ => none

/-- The two-let example program of the specification:
Block([Let(a, Add(Constant(2), Constant(2))), Let(b, Add(Constant(3), Var(a)))]). -/
def astC2 : Node :=
  .block (.cons (.leti "a" (.add (.con (.num 2)) (.con (.num 2))))
    (.cons (.leti "b" (.add (.con (.num 3)) (.vari "a"))) .nil))

/-- The frame the example program compiles to. -/
def frC2 : Frame :=
  { in_count := 0, out_count := 0, size := 2, consts := [.num 2, .num 3],
    locals := ["a", "b"],
    code := [.iADD 0 (-1) (-1), .iADD 1 (-2) 0] }

/-- The VM state after the example program has run to the halt point. -/
def vmC2 : VM :=
  { fn := frC2, regs := [some (.num 4), some (.num 7)], stack := [], pc := 2,
    regOffset := 0 }

/-- A one-instruction frame used to exercise the halting contract. -/
def frW3 : Frame :=
  { in_count := 0, out_count := 0, size := 1, consts := [.num 5], locals := ["x"],
    code := [.iLOADK 0 (-1)] }

/-- The state of a fresh VM over frW3 after its single instruction. -/
def vmW3 : VM :=
  { fn := frW3, regs := [some (.num 5)], stack := [], pc := 1, regOffset := 0 }

/-- A program holding two structurally equal constants. -/
def astW4 : Node := .leti "x" (.add (.con (.num 7)) (.con (.num 7)))

/-- The frame astW4 compiles to: one pooled constant shared by both uses. -/
def frW4 : Frame :=
  { in_count := 0, out_count := 0, size := 1, consts := [.num 7], locals := ["x"],
    code := [.iADD 0 (-1) (-1)] }

/-- A generator state already holding the constant 7. -/
def gW4 : CodeGen :=
  { consts := [.num 7], code := [], locals := [], tempCount := 0, maxTemp := -1,
    stack := [], lhs := none }

/-- A frame whose constant pool holds a Boolean and a Number. -/
def frW5 : Frame :=
  { in_count := 0, out_count := 0, size := 1, consts := [.bool true, .num 1],
    locals := [], code := [] }

/-- A fresh VM over frW5. -/
def vmW5 : VM := VM.new frW5

/-- A two-register frame with one constant. -/
def frW6 : Frame :=
  { in_count := 0, out_count := 0, size := 2, consts := [.num 7], locals := [],
    code := [] }

/-- A VM over frW6 with a value in register 0. -/
def vmW6 : VM :=
  { fn := frW6, regs := [some (.num 9), none], stack := [], pc := 0, regOffset := 0 }

/-- The generator state after compiling Let(a, Constant(1)) from scratch. -/
def g1W7 : CodeGen :=
  { consts := [.num 1], code := [.loadk (.locIdx 0) (.constRef (-1))],
    locals := ["a"], tempCount := 0, maxTemp := -1, stack := [.locIdx 0],
    lhs := none }

/-- A program with one let over a deduplicated addition. -/
def astW8 : Node := .leti "x" (.add (.con (.num 1)) (.con (.num 1)))

/-- The frame astW8 compiles to. -/
def frW8 : Frame :=
  { in_count := 0, out_count := 0, size := 1, consts := [.num 1], locals := ["x"],
    code := [.iADD 0 (-1) (-1)] }

/-- A size-one frame with nothing else, to inspect a fresh register file. -/
def frC9 : Frame :=
  { in_count := 0, out_count := 0, size := 1, consts := [], locals := [], code := [] }

/-- A frame whose only constant is a Boolean. -/
def frW10 : Frame :=
  { in_count := 0, out_count := 0, size := 1, consts := [.bool false], locals := [],
    code := [] }

/-- A fresh VM over frW10. -/
def vmW10 : VM := VM.new frW10

deriving instance DecidableEq for Except

/-! Lemmas about the first-match scan. -/

theorem firstIdx_lt_length {α : Type} {p : α → Bool} :
    ∀ {l : List α} {i : Nat}, firstIdx p l = some i → i < l.length := by
  intro l
  induction l with
  | nil => intro i h; simp [firstIdx] at h
  | cons a rest ih =>
    intro i h
    by_cases hp : p a
    · simp [firstIdx, hp] at h
      simp [← h]
    · simp only [firstIdx, hp, if_false] at h
      rcases Option.map_eq_some'.mp h with ⟨j, hj, rfl⟩
      have := ih hj
      simp only [List.length_cons]
      omega

theorem firstIdx_none {α : Type} {p : α → Bool} :
    ∀ {l : List α}, firstIdx p l = none → ∀ a ∈ l, p a = false := by
  intro l
  induction l with
  | nil => intro _ a ha; simp at ha
  | cons b rest ih =>
    intro h a ha
    cases hp : p b with
    | true => simp [firstIdx, hp] at h
    | false =>
      simp [firstIdx, hp, Option.map_eq_none'] at h
      rcases List.mem_cons.mp ha with rfl | hmem
      · exact hp
      · exact ih h a hmem

theorem firstIdx_some_of_mem {α : Type} {p : α → Bool} {a : α} :
    ∀ {l : List α}, a ∈ l → p a = true → ∃ i, firstIdx p l = some i := by
  intro l
  induction l with
  | nil => intro h; simp at h
  | cons b rest ih =>
    intro hmem hp
    by_cases hb : p b
    · exact ⟨0, by simp [firstIdx, hb]⟩
    · rcases List.mem_cons.mp hmem with rfl | hmem'
      · exact absurd hp (by simp [hb])
      · rcases ih hmem' hp with ⟨i, hi⟩
        exact ⟨i + 1, by simp [firstIdx, hb, hi]⟩

/-! Lemmas about the maxTemp bookkeeping. -/

theorem updMaxTemp_le : ∀ (args : List Loc) (m : Int), m ≤ updMaxTemp m args := by
  intro args
  induction args with
  | nil => intro m; simp [updMaxTemp]
  | cons l rest ih =>
    intro m
    cases l with
    | temp i =>
        have h1 : updMaxTemp m (Loc.temp i :: rest)
            = updMaxTemp (if m < (i : Int) then (i : Int) else m) rest := rfl
        rw [h1]
        have h2 := ih (if m < (i : Int) then (i : Int) else m)
        have h3 : m ≤ (if m < (i : Int) then (i : Int) else m) := by split <;> omega
        omega
    | locIdx i => exact ih m
    | constRef v => exact ih m

theorem updMaxTemp_temp :
    ∀ (args : List Loc) (m : Int) {i : Nat}, Loc.temp i ∈ args →
      (i : Int) ≤ updMaxTemp m args := by
  intro args
  induction args with
  | nil => intro m i h; simp at h
  | cons l rest ih =>
    intro m i h
    cases l with
    | temp j =>
        have h1 : updMaxTemp m (Loc.temp j :: rest)
            = updMaxTemp (if m < (j : Int) then (j : Int) else m) rest := rfl
        rw [h1]
        rcases List.mem_cons.mp h with heq | hmem
        · cases heq
          have h2 := updMaxTemp_le rest (if m < (i : Int) then (i : Int) else m)
          have h3 : (i : Int) ≤ (if m < (i : Int) then (i : Int) else m) := by split <;> omega
          omega
        · exact ih _ hmem
    | locIdx j =>
        rcases List.mem_cons.mp h with heq | hmem
        · cases heq
        · exact ih _ hmem
    | constRef v =>
        rcases List.mem_cons.mp h with heq | hmem
        · cases heq
        · exact ih _ hmem

theorem codeMax_append (c : List EmitEntry) (e : EmitEntry) :
    codeMax (c ++ [e]) = updMaxTemp (codeMax c) e.args := by
  simp [codeMax, List.foldl_append]

/-! Invariants of the generator state. -/

/-- Validity of a location that may be passed to emit, relative to the
numbers of locals and constants accumulated so far: local indices are in
range, const payloads decode into the pool, temps are unconstrained
(emit itself raises maxTemp over them). -/
def locPreL (nLocals nConsts : Nat) : Loc → Prop
  | .temp _ => True
  | .locIdx i => i < nLocals
  | .constRef v => ∃ k : Nat, k < nConsts ∧ v = -(k : Int) - 1

/-- Validity of a location recorded inside an emitted entry: as locPreL,
and temp indices are bounded by maxTemp. -/
def locEmittedL (nLocals nConsts : Nat) (mT : Int) : Loc → Prop
  | .temp i => (i : Int) ≤ mT
  | .locIdx i => i < nLocals
  | .constRef v => ∃ k : Nat, k < nConsts ∧ v = -(k : Int) - 1

theorem locPreL_mono {n1 n2 n1' n2' : Nat} (h1 : n1 ≤ n1') (h2 : n2 ≤ n2') :
    ∀ {l : Loc}, locPreL n1 n2 l → locPreL n1' n2' l := by
  intro l hl
  cases l with
  | temp i => trivial
  | locIdx i => exact lt_of_lt_of_le hl h1
  | constRef v => rcases hl with ⟨k, hk, rfl⟩; exact ⟨k, lt_of_lt_of_le hk h2, rfl⟩

theorem locEmittedL_mono {n1 n2 n1' n2' : Nat} {m m' : Int}
    (h1 : n1 ≤ n1') (h2 : n2 ≤ n2') (h3 : m ≤ m') :
    ∀ {l : Loc}, locEmittedL n1 n2 m l → locEmittedL n1' n2' m' l := by
  intro l hl
  cases l with
  | temp i => exact le_trans hl h3
  | locIdx i => exact lt_of_lt_of_le hl h1
  | constRef v => rcases hl with ⟨k, hk, rfl⟩; exact ⟨k, lt_of_lt_of_le hk h2, rfl⟩

/-- Invariant of a reachable generator state: every recorded code entry
refers only to in-range locals and constants and to temps below maxTemp,
every pending stack or lhs location is in range, maxTemp is at least -1
and equals the maximum temp referenced by the code, and the constant pool
holds no structurally equal pair. -/
structure GoodGen (g : CodeGen) : Prop where
  code_ok : ∀ e ∈ g.code, ∀ l ∈ EmitEntry.args e,
    locEmittedL g.locals.length g.consts.length g.maxTemp l
  stack_ok : ∀ l ∈ g.stack, locPreL g.locals.length g.consts.length l
  lhs_ok : ∀ l, g.lhs = some l → locPreL g.locals.length g.consts.length l
  maxTemp_lb : -1 ≤ g.maxTemp
  maxTemp_sync : g.maxTemp = codeMax g.code
  consts_nodup : g.consts.Pairwise (fun a b => veq a b = false)

/-- How one generation step relates the generator state before and after:
constants, locals and code grow by appending, maxTemp never decreases,
tempCount and lhs are restored. -/
structure Evolves (g g' : CodeGen) : Prop where
  consts_ext : ∃ t, g'.consts = g.consts ++ t
  locals_ext : ∃ t, g'.locals = g.locals ++ t
  code_ext : ∃ t, g'.code = g.code ++ t
  maxTemp_le : g.maxTemp ≤ g'.maxTemp
  tempCount_eq : g'.tempCount = g.tempCount
  lhs_eq : g'.lhs = g.lhs

theorem evolvesRefl (g : CodeGen) : Evolves g g :=
  ⟨⟨[], by simp⟩, ⟨[], by simp⟩, ⟨[], by simp⟩, le_refl _, rfl, rfl⟩

theorem Evolves.trans {g1 g2 g3 : CodeGen} (a : Evolves g1 g2) (b : Evolves g2 g3) :
    Evolves g1 g3 := by
  obtain ⟨⟨t1, h1⟩, ⟨t2, h2⟩, ⟨t3, h3⟩, h4, h5, h6⟩ := a
  obtain ⟨⟨s1, k1⟩, ⟨s2, k2⟩, ⟨s3, k3⟩, k4, k5, k6⟩ := b
  exact ⟨⟨t1 ++ s1, by simp [k1, h1]⟩, ⟨t2 ++ s2, by simp [k2, h2]⟩,
    ⟨t3 ++ s3, by simp [k3, h3]⟩, le_trans h4 k4, h5 ▸ k5, h6 ▸ k6⟩

theorem Evolves.locals_len {g g' : CodeGen} (h : Evolves g g') :
    g.locals.length ≤ g'.locals.length := by
  obtain ⟨t, ht⟩ := h.locals_ext; simp [ht]

theorem Evolves.consts_len {g g' : CodeGen} (h : Evolves g g') :
    g.consts.length ≤ g'.consts.length := by
  obtain ⟨t, ht⟩ := h.consts_ext; simp [ht]

/-- emit preserves the generator invariant whenever the emitted arguments
are in range for the current state. -/
theorem emit_good {g : CodeGen} {e : EmitEntry} (hg : GoodGen g)
    (hargs : ∀ l ∈ e.args, locPreL g.locals.length g.consts.length l) :
    GoodGen (g.emit e) := by
  obtain ⟨hcode, hstack, hlhs, hlb, hsync, hnd⟩ := hg
  refine ⟨?_, hstack, hlhs, le_trans hlb (updMaxTemp_le _ _), ?_, hnd⟩
  · intro e' he' l hl
    simp only [CodeGen.emit] at he'
    rcases List.mem_append.mp he' with hold | hnew
    · exact locEmittedL_mono (le_refl _) (le_refl _) (updMaxTemp_le _ _) (hcode e' hold l hl)
    · rcases List.mem_singleton.mp hnew with rfl
      cases l with
      | temp i => exact updMaxTemp_temp _ _ hl
      | locIdx i => exact hargs _ hl
      | constRef v => exact hargs _ hl
  · show updMaxTemp g.maxTemp e.args = codeMax (g.code ++ [e])
    rw [codeMax_append, ← hsync]

/-- The conditional move/loadk emission of leti and set: effect on every
generator field, and invariant preservation. -/
theorem assignEmit_sound (i : Nat) (v : Loc) (g3 : CodeGen) :
    (assignEmit i v g3).consts = g3.consts ∧
    (assignEmit i v g3).locals = g3.locals ∧
    (∃ t, (assignEmit i v g3).code = g3.code ++ t) ∧
    g3.maxTemp ≤ (assignEmit i v g3).maxTemp ∧
    (assignEmit i v g3).tempCount = g3.tempCount ∧
    (assignEmit i v g3).lhs = g3.lhs ∧
    (assignEmit i v g3).stack = g3.stack ∧
    (GoodGen g3 → i < g3.locals.length →
      locPreL g3.locals.length g3.consts.length v → GoodGen (assignEmit i v g3)) := by
  have emitArgs : ∀ (e : EmitEntry),
      (g3.emit e).consts = g3.consts ∧ (g3.emit e).locals = g3.locals ∧
      (∃ t, (g3.emit e).code = g3.code ++ t) ∧ g3.maxTemp ≤ (g3.emit e).maxTemp ∧
      (g3.emit e).tempCount = g3.tempCount ∧ (g3.emit e).lhs = g3.lhs ∧
      (g3.emit e).stack = g3.stack := by
    intro e
    refine ⟨rfl, rfl, ⟨[e], rfl⟩, updMaxTemp_le _ _, rfl, rfl, rfl⟩
  cases v with
  | constRef k =>
      obtain ⟨h1, h2, h3, h4, h5, h6, h7⟩ := emitArgs (.loadk (.locIdx i) (.constRef k))
      refine ⟨h1, h2, h3, h4, h5, h6, h7, ?_⟩
      intro hg hi hv
      refine emit_good hg ?_
      intro l hl
      simp only [EmitEntry.args, List.mem_cons, List.not_mem_nil, or_false] at hl
      rcases hl with rfl | rfl
      · exact hi
      · exact hv
  | temp j =>
      obtain ⟨h1, h2, h3, h4, h5, h6, h7⟩ := emitArgs (.move (.locIdx i) (.temp j))
      refine ⟨h1, h2, h3, h4, h5, h6, h7, ?_⟩
      intro hg hi hv
      refine emit_good hg ?_
      intro l hl
      simp only [EmitEntry.args, List.mem_cons, List.not_mem_nil, or_false] at hl
      rcases hl with rfl | rfl
      · exact hi
      · exact hv
  | locIdx j =>
      by_cases hji : j = i
      · have hred : assignEmit i (.locIdx j) g3 = g3 := by simp [assignEmit, hji]
        rw [hred]
        exact ⟨rfl, rfl, ⟨[], by simp⟩, le_refl _, rfl, rfl, rfl, fun hg _ _ => hg⟩
      · have hred : assignEmit i (.locIdx j) g3
            = g3.emit (.move (.locIdx i) (.locIdx j)) := by simp [assignEmit, hji]
        rw [hred]
        obtain ⟨h1, h2, h3, h4, h5, h6, h7⟩ := emitArgs (.move (.locIdx i) (.locIdx j))
        refine ⟨h1, h2, h3, h4, h5, h6, h7, ?_⟩
        intro hg hi hv
        refine emit_good hg ?_
        intro l hl
        simp only [EmitEntry.args, List.mem_cons, List.not_mem_nil, or_false] at hl
        rcases hl with rfl | rfl
        · exact hi
        · exact hv

/- Soundness of one generation step and of the block loop: the state
evolves by appending, the net stack effect is one push (none for the
loop), and the reachable-state invariant is preserved. Proved by mutual
structural induction. -/
mutual
theorem genNode_sound (nd : Node) :
    ∀ (g g' : CodeGen), genNode nd g = .ok g' →
      Evolves g g' ∧ (∃ l, g'.stack = l :: g.stack) ∧ (GoodGen g → GoodGen g') := by
  cases nd with
  | con value =>
    intro g g' h
    simp only [genNode] at h
    cases hf : firstIdx (fun c => veq c value) g.consts with
    | some i =>
      rw [hf] at h
      simp only [] at h
      injection h with h
      subst h
      refine ⟨⟨⟨[], by simp⟩, ⟨[], by simp⟩, ⟨[], by simp⟩, le_refl _, rfl, rfl⟩,
        ⟨.constRef (-(i : Int) - 1), rfl⟩, ?_⟩
      intro hg
      obtain ⟨a1, a2, a3, a4, a5, a6⟩ := hg
      refine ⟨a1, ?_, a3, a4, a5, a6⟩
      intro l hl
      rcases List.mem_cons.mp hl with rfl | hmem
      · exact ⟨i, firstIdx_lt_length hf, rfl⟩
      · exact a2 l hmem
    | none =>
      rw [hf] at h
      simp only [] at h
      injection h with h
      subst h
      refine ⟨⟨⟨[value], rfl⟩, ⟨[], by simp⟩, ⟨[], by simp⟩, le_refl _, rfl, rfl⟩,
        ⟨.constRef (-(g.consts.length : Int) - 1), rfl⟩, ?_⟩
      intro hg
      obtain ⟨a1, a2, a3, a4, a5, a6⟩ := hg
      have hlen : g.consts.length ≤ (g.consts ++ [value]).length := by simp
      refine ⟨?_, ?_, ?_, a4, a5, ?_⟩
      · intro e he l hl
        exact locEmittedL_mono (le_refl _) hlen (le_refl _) (a1 e he l hl)
      · intro l hl
        rcases List.mem_cons.mp hl with rfl | hmem
        · exact ⟨g.consts.length, by simp, rfl⟩
        · exact locPreL_mono (le_refl _) hlen (a2 l hmem)
      · intro l hl
        exact locPreL_mono (le_refl _) hlen (a3 l hl)
      · rw [List.pairwise_append]
        refine ⟨a6, List.pairwise_singleton _ _, ?_⟩
        intro a ha b hb
        rcases List.mem_singleton.mp hb with rfl
        exact firstIdx_none hf a ha
  | vari name =>
    intro g g' h
    simp only [genNode] at h
    cases hf : firstIdx (fun x => x == name) g.locals with
    | none => rw [hf] at h; simp at h
    | some i =>
      rw [hf] at h
      simp only [] at h
      injection h with h
      subst h
      refine ⟨⟨⟨[], by simp⟩, ⟨[], by simp⟩, ⟨[], by simp⟩, le_refl _, rfl, rfl⟩,
        ⟨.locIdx i, rfl⟩, ?_⟩
      intro hg
      obtain ⟨a1, a2, a3, a4, a5, a6⟩ := hg
      refine ⟨a1, ?_, a3, a4, a5, a6⟩
      intro l hl
      rcases List.mem_cons.mp hl with rfl | hmem
      · exact firstIdx_lt_length hf
      · exact a2 l hmem
  | add lhs rhs =>
    intro g g' h
    simp only [genNode] at h
    cases hl : genNode lhs g with
    | error e => rw [hl] at h; simp at h
    | ok g1 =>
      rw [hl] at h
      simp only [] at h
      obtain ⟨E1, ⟨l0, hpush1⟩, good1⟩ := genNode_sound lhs g g1 hl
      cases hst1 : g1.stack with
      | nil => rw [hst1] at h; simp at h
      | cons l st1 =>
        rw [hst1] at h
        simp only [] at h
        rw [hst1] at hpush1
        injection hpush1 with hl0 hst1g
        cases hr : genNode rhs { g1 with stack := st1, tempCount := g1.tempCount + 1,
                                          lhs := some (.temp g1.tempCount) } with
        | error e => rw [hr] at h; simp at h
        | ok g4 =>
          rw [hr] at h
          simp only [] at h
          obtain ⟨E2, ⟨r0, hpush4⟩, good2⟩ := genNode_sound rhs _ g4 hr
          cases hst4 : g4.stack with
          | nil => rw [hst4] at h; simp at h
          | cons r st2 =>
            rw [hst4] at h
            simp only [] at h
            rw [hst4] at hpush4
            injection hpush4 with hr0 hst2g
            have hst2g' : st2 = st1 := hst2g
            cases hlh : g1.lhs with
            | none => rw [hlh] at h; simp at h
            | some d =>
              rw [hlh] at h
              simp only [] at h
              injection h with h
              subst h
              have hc4 : ∃ t, g4.consts = g1.consts ++ t := E2.consts_ext
              have hl4 : ∃ t, g4.locals = g1.locals ++ t := E2.locals_ext
              have hcode4 : ∃ t, g4.code = g1.code ++ t := E2.code_ext
              have hm4 : g1.maxTemp ≤ g4.maxTemp := E2.maxTemp_le
              have htc4 : g4.tempCount = g1.tempCount + 1 := E2.tempCount_eq
              have hd : g.lhs = some d := E1.lhs_eq ▸ hlh
              refine ⟨?_, ⟨d, ?_⟩, ?_⟩
              · obtain ⟨t1, ht1⟩ := E1.consts_ext
                obtain ⟨t2, ht2⟩ := hc4
                obtain ⟨s1, hs1⟩ := E1.locals_ext
                obtain ⟨s2, hs2⟩ := hl4
                obtain ⟨u1, hu1⟩ := E1.code_ext
                obtain ⟨u2, hu2⟩ := hcode4
                refine ⟨⟨t1 ++ t2, ?_⟩, ⟨s1 ++ s2, ?_⟩, ⟨u1 ++ u2 ++ [.addi d l r], ?_⟩,
                  ?_, ?_, ?_⟩
                · show g4.consts = g.consts ++ (t1 ++ t2)
                  rw [ht2, ht1, List.append_assoc]
                · show g4.locals = g.locals ++ (s1 ++ s2)
                  rw [hs2, hs1, List.append_assoc]
                · show g4.code ++ [EmitEntry.addi d l r] = g.code ++ (u1 ++ u2 ++ [.addi d l r])
                  rw [hu2, hu1]
                  simp [List.append_assoc]
                · show g.maxTemp ≤ updMaxTemp g4.maxTemp (EmitEntry.args (.addi d l r))
                  exact le_trans (le_trans E1.maxTemp_le hm4) (updMaxTemp_le _ _)
                · show g4.tempCount - 1 = g.tempCount
                  rw [htc4, E1.tempCount_eq]
                  omega
                · show some d = g.lhs
                  exact hd.symm
              · show d :: st2 = d :: g.stack
                rw [hst2g', hst1g]
              · intro hg
                have hg1 := good1 hg
                have hgIn : GoodGen { g1 with stack := st1, tempCount := g1.tempCount + 1,
                                              lhs := some (.temp g1.tempCount) } := by
                  obtain ⟨a1, a2, a3, a4, a5, a6⟩ := hg1
                  refine ⟨a1, ?_, ?_, a4, a5, a6⟩
                  · intro l2 hl2
                    exact a2 l2 (by rw [hst1]; exact List.mem_cons_of_mem _ hl2)
                  · intro l2 hl2
                    injection hl2 with hl2
                    rw [← hl2]
                    trivial
                have hg4 := good2 hgIn
                have hLl : locPreL g1.locals.length g1.consts.length l :=
                  hg1.stack_ok l (by rw [hst1]; exact List.mem_cons_self _ _)
                have hLr : locPreL g4.locals.length g4.consts.length r :=
                  hg4.stack_ok r (by rw [hst4]; exact List.mem_cons_self _ _)
                have hLd : locPreL g1.locals.length g1.consts.length d := hg1.lhs_ok d hlh
                have len1 : g1.locals.length ≤ g4.locals.length := by
                  obtain ⟨t, ht⟩ := hl4; rw [ht]; simp
                have lenc1 : g1.consts.length ≤ g4.consts.length := by
                  obtain ⟨t, ht⟩ := hc4; rw [ht]; simp
                have hg6 : GoodGen { g4 with stack := st2, lhs := some d } := by
                  obtain ⟨a1, a2, a3, a4, a5, a6⟩ := hg4
                  refine ⟨a1, ?_, ?_, a4, a5, a6⟩
                  · intro l2 hl2
                    exact a2 l2 (by rw [hst4]; exact List.mem_cons_of_mem _ hl2)
                  · intro l2 hl2
                    injection hl2 with hl2
                    rw [← hl2]
                    exact locPreL_mono len1 lenc1 hLd
                have hg7 : GoodGen (CodeGen.emit { g4 with stack := st2, lhs := some d }
                    (.addi d l r)) := by
                  refine emit_good hg6 ?_
                  intro l2 hl2
                  simp only [EmitEntry.args, List.mem_cons, List.not_mem_nil, or_false] at hl2
                  rcases hl2 with rfl | rfl | rfl
                  · exact locPreL_mono len1 lenc1 hLd
                  · exact locPreL_mono len1 lenc1 hLl
                  · exact hLr
                obtain ⟨b1, b2, b3, b4, b5, b6⟩ := hg7
                refine ⟨b1, ?_, b3, b4, b5, b6⟩
                intro l2 hl2
                rcases List.mem_cons.mp hl2 with rfl | hmem
                · exact locPreL_mono len1 lenc1 hLd
                · exact b2 l2 hmem
  | leti name value =>
    intro g g' h
    simp only [genNode] at h
    cases hf : firstIdx (fun x => x == name) g.locals with
    | some i => rw [hf] at h; simp at h
    | none =>
      rw [hf] at h
      simp only [] at h
      cases hv : genNode value { g with locals := g.locals ++ [name],
                                        lhs := some (.locIdx g.locals.length) } with
      | error e => rw [hv] at h; simp at h
      | ok g2 =>
        rw [hv] at h
        simp only [] at h
        obtain ⟨E2, ⟨v0, hpush⟩, good2⟩ := genNode_sound value _ g2 hv
        cases hst : g2.stack with
        | nil => rw [hst] at h; simp at h
        | cons v st =>
          rw [hst] at h
          simp only [] at h
          injection h with h
          subst h
          rw [hst] at hpush
          injection hpush with hv0 hstg
          have hstg' : st = g.stack := hstg
          have hc2 : ∃ t, g2.consts = g.consts ++ t := E2.consts_ext
          have hl2 : ∃ t, g2.locals = (g.locals ++ [name]) ++ t := E2.locals_ext
          have hcode2 : ∃ t, g2.code = g.code ++ t := E2.code_ext
          have hm2 : g.maxTemp ≤ g2.maxTemp := E2.maxTemp_le
          have htc2 : g2.tempCount = g.tempCount := E2.tempCount_eq
          obtain ⟨s1, s2, ⟨tc, s3⟩, s4, s5, s6, s7, s8⟩ :=
            assignEmit_sound g.locals.length v { g2 with stack := st }
          have hib : g.locals.length < g2.locals.length := by
            obtain ⟨t, ht⟩ := hl2
            rw [ht]
            simp [List.length_append]
          have hcb : g.consts.length ≤ g2.consts.length := by
            obtain ⟨t, ht⟩ := hc2; rw [ht]; simp
          refine ⟨⟨?_, ?_, ?_, ?_, ?_, rfl⟩, ⟨.locIdx g.locals.length, ?_⟩, ?_⟩
          · obtain ⟨t, ht⟩ := hc2
            refine ⟨t, ?_⟩
            rw [← ht]
            exact s1
          · obtain ⟨t, ht⟩ := hl2
            refine ⟨[name] ++ t, ?_⟩
            rw [← List.append_assoc, ← ht]
            exact s2
          · obtain ⟨t, ht⟩ := hcode2
            refine ⟨t ++ tc, ?_⟩
            rw [← List.append_assoc, ← ht]
            exact s3
          · exact le_trans hm2 s4
          · exact s5.trans htc2
          · exact congrArg (fun x => Loc.locIdx g.locals.length :: x)
              ((s7 : _ = st).trans hstg')
          · intro hg
            have hgIn : GoodGen { g with locals := g.locals ++ [name],
                                         lhs := some (.locIdx g.locals.length) } := by
              obtain ⟨a1, a2, a3, a4, a5, a6⟩ := hg
              have hlen : g.locals.length ≤ (g.locals ++ [name]).length := by simp
              refine ⟨?_, ?_, ?_, a4, a5, a6⟩
              · intro e he l2 hl2
                exact locEmittedL_mono hlen (le_refl _) (le_refl _) (a1 e he l2 hl2)
              · intro l2 hl2
                exact locPreL_mono hlen (le_refl _) (a2 l2 hl2)
              · intro l2 hl2
                injection hl2 with hl2
                rw [← hl2]
                show g.locals.length < (g.locals ++ [name]).length
                simp
            have hg2 := good2 hgIn
            have hLv : locPreL g2.locals.length g2.consts.length v :=
              hg2.stack_ok v (by rw [hst]; exact List.mem_cons_self _ _)
            have hgPop : GoodGen { g2 with stack := st } := by
              obtain ⟨a1, a2, a3, a4, a5, a6⟩ := hg2
              refine ⟨a1, ?_, a3, a4, a5, a6⟩
              intro l2 hl2
              exact a2 l2 (by rw [hst]; exact List.mem_cons_of_mem _ hl2)
            have hgA := s8 hgPop hib hLv
            obtain ⟨b1, b2, b3, b4, b5, b6⟩ := hgA
            refine ⟨b1, ?_, ?_, b4, b5, b6⟩
            · intro l2 hl2
              rcases List.mem_cons.mp hl2 with rfl | hmem
              · rw [s2]
                exact hib
              · exact b2 l2 hmem
            · intro l2 hl2
              rw [s2, s1]
              exact locPreL_mono (le_of_lt hib) hcb (hg.lhs_ok l2 hl2)
  | set name value =>
    intro g g' h
    simp only [genNode] at h
    cases hf : firstIdx (fun x => x == name) g.locals with
    | none => rw [hf] at h; simp at h
    | some i =>
      rw [hf] at h
      simp only [] at h
      cases hv : genNode value { g with lhs := some (.locIdx i) } with
      | error e => rw [hv] at h; simp at h
      | ok g2 =>
        rw [hv] at h
        simp only [] at h
        obtain ⟨E2, ⟨v0, hpush⟩, good2⟩ := genNode_sound value _ g2 hv
        cases hst : g2.stack with
        | nil => rw [hst] at h; simp at h
        | cons v st =>
          rw [hst] at h
          simp only [] at h
          injection h with h
          subst h
          rw [hst] at hpush
          injection hpush with hv0 hstg
          have hstg' : st = g.stack := hstg
          have hc2 : ∃ t, g2.consts = g.consts ++ t := E2.consts_ext
          have hl2 : ∃ t, g2.locals = g.locals ++ t := E2.locals_ext
          have hcode2 : ∃ t, g2.code = g.code ++ t := E2.code_ext
          have hm2 : g.maxTemp ≤ g2.maxTemp := E2.maxTemp_le
          have htc2 : g2.tempCount = g.tempCount := E2.tempCount_eq
          obtain ⟨s1, s2, ⟨tc, s3⟩, s4, s5, s6, s7, s8⟩ :=
            assignEmit_sound i v { g2 with stack := st }
          have hig : i < g.locals.length := firstIdx_lt_length hf
          have hib : i < g2.locals.length := by
            obtain ⟨t, ht⟩ := hl2
            rw [ht]
            simp only [List.length_append]
            omega
          have hcb : g.consts.length ≤ g2.consts.length := by
            obtain ⟨t, ht⟩ := hc2; rw [ht]; simp
          have hlb : g.locals.length ≤ g2.locals.length := by
            obtain ⟨t, ht⟩ := hl2; rw [ht]; simp
          refine ⟨⟨?_, ?_, ?_, ?_, ?_, rfl⟩, ⟨.locIdx i, ?_⟩, ?_⟩
          · obtain ⟨t, ht⟩ := hc2
            refine ⟨t, ?_⟩
            rw [← ht]
            exact s1
          · obtain ⟨t, ht⟩ := hl2
            refine ⟨t, ?_⟩
            rw [← ht]
            exact s2
          · obtain ⟨t, ht⟩ := hcode2
            refine ⟨t ++ tc, ?_⟩
            rw [← List.append_assoc, ← ht]
            exact s3
          · exact le_trans hm2 s4
          · exact s5.trans htc2
          · exact congrArg (fun x => Loc.locIdx i :: x) ((s7 : _ = st).trans hstg')
          · intro hg
            have hgIn : GoodGen { g with lhs := some (.locIdx i) } := by
              obtain ⟨a1, a2, a3, a4, a5, a6⟩ := hg
              refine ⟨a1, a2, ?_, a4, a5, a6⟩
              intro l2 hl2
              injection hl2 with hl2
              rw [← hl2]
              exact hig
            have hg2 := good2 hgIn
            have hLv : locPreL g2.locals.length g2.consts.length v :=
              hg2.stack_ok v (by rw [hst]; exact List.mem_cons_self _ _)
            have hgPop : GoodGen { g2 with stack := st } := by
              obtain ⟨a1, a2, a3, a4, a5, a6⟩ := hg2
              refine ⟨a1, ?_, a3, a4, a5, a6⟩
              intro l2 hl2
              exact a2 l2 (by rw [hst]; exact List.mem_cons_of_mem _ hl2)
            have hgA := s8 hgPop hib hLv
            obtain ⟨b1, b2, b3, b4, b5, b6⟩ := hgA
            refine ⟨b1, ?_, ?_, b4, b5, b6⟩
            · intro l2 hl2
              rcases List.mem_cons.mp hl2 with rfl | hmem
              · rw [s2]
                exact hib
              · exact b2 l2 hmem
            · intro l2 hl2
              rw [s2, s1]
              exact locPreL_mono hlb hcb (hg.lhs_ok l2 hl2)
  | block body =>
    intro g g' h
    cases body with
    | nil => simp [genNode] at h
    | cons e rest =>
      simp only [genNode] at h
      cases he : genNode e g with
      | error err => rw [he] at h; simp at h
      | ok g1 =>
        rw [he] at h
        simp only [] at h
        obtain ⟨E1, ⟨v0, hpush⟩, good1⟩ := genNode_sound e g g1 he
        cases hst : g1.stack with
        | nil => rw [hst] at h; simp at h
        | cons v2 st =>
          rw [hst] at h
          simp only [] at h
          rw [hst] at hpush
          injection hpush with hv0 hstg
          cases hs : genSeq rest v2 { g1 with stack := st } with
          | error err => rw [hs] at h; simp at h
          | ok pr =>
            obtain ⟨result, g2⟩ := pr
            rw [hs] at h
            simp only [] at h
            injection h with h
            subst h
            obtain ⟨E2, hstk2, good2⟩ := genSeq_sound rest v2 { g1 with stack := st } result g2 hs
            have Em : Evolves g1 { g1 with stack := st } :=
              ⟨⟨[], by simp⟩, ⟨[], by simp⟩, ⟨[], by simp⟩, le_refl _, rfl, rfl⟩
            have Ef : Evolves g2 { g2 with stack := result :: g2.stack } :=
              ⟨⟨[], by simp⟩, ⟨[], by simp⟩, ⟨[], by simp⟩, le_refl _, rfl, rfl⟩
            refine ⟨((E1.trans Em).trans E2).trans Ef, ⟨result, ?_⟩, ?_⟩
            · show result :: g2.stack = result :: g.stack
              rw [(hstk2 : g2.stack = st), hstg]
            · intro hg
              have hg1 := good1 hg
              have hgPop : GoodGen { g1 with stack := st } := by
                obtain ⟨a1, a2, a3, a4, a5, a6⟩ := hg1
                refine ⟨a1, ?_, a3, a4, a5, a6⟩
                intro l2 hl2
                exact a2 l2 (by rw [hst]; exact List.mem_cons_of_mem _ hl2)
              obtain ⟨hg2, htr⟩ := good2 hgPop
              have hres : locPreL g2.locals.length g2.consts.length result :=
                htr (hg1.stack_ok v2 (by rw [hst]; exact List.mem_cons_self _ _))
              obtain ⟨b1, b2, b3, b4, b5, b6⟩ := hg2
              refine ⟨b1, ?_, b3, b4, b5, b6⟩
              intro l2 hl2
              rcases List.mem_cons.mp hl2 with rfl | hmem
              · exact hres
              · exact b2 l2 hmem

theorem genSeq_sound (body : NodeList) :
    ∀ (v : Loc) (g : CodeGen) (vr : Loc) (g' : CodeGen),
      genSeq body v g = .ok (vr, g') →
      Evolves g g' ∧ g'.stack = g.stack ∧
      (GoodGen g → GoodGen g' ∧
        (locPreL g.locals.length g.consts.length v →
          locPreL g'.locals.length g'.consts.length vr)) := by
  cases body with
  | nil =>
    intro v g vr g' h
    simp only [genSeq] at h
    injection h with h
    injection h with h1 h2
    subst h1
    subst h2
    exact ⟨evolvesRefl g, rfl, fun hg => ⟨hg, id⟩⟩
  | cons e rest =>
    intro v g vr g' h
    simp only [genSeq] at h
    cases he : genNode e g with
    | error err => rw [he] at h; simp at h
    | ok g1 =>
      rw [he] at h
      simp only [] at h
      obtain ⟨E1, ⟨v0, hpush⟩, good1⟩ := genNode_sound e g g1 he
      cases hst : g1.stack with
      | nil => rw [hst] at h; simp at h
      | cons v2 st =>
        rw [hst] at h
        simp only [] at h
        rw [hst] at hpush
        injection hpush with hv2 hstg
        obtain ⟨E2, hstk2, good2⟩ := genSeq_sound rest v2 { g1 with stack := st } vr g' h
        have Em : Evolves g1 { g1 with stack := st } :=
          ⟨⟨[], by simp⟩, ⟨[], by simp⟩, ⟨[], by simp⟩, le_refl _, rfl, rfl⟩
        refine ⟨(E1.trans Em).trans E2, ?_, ?_⟩
        · exact (hstk2 : g'.stack = st).trans hstg
        · intro hg
          have hg1 := good1 hg
          have hgPop : GoodGen { g1 with stack := st } := by
            obtain ⟨a1, a2, a3, a4, a5, a6⟩ := hg1
            refine ⟨a1, ?_, a3, a4, a5, a6⟩
            intro l2 hl2
            exact a2 l2 (by rw [hst]; exact List.mem_cons_of_mem _ hl2)
          obtain ⟨hg2, htr⟩ := good2 hgPop
          refine ⟨hg2, ?_⟩
          intro _
          exact htr (hg1.stack_ok v2 (by rw [hst]; exact List.mem_cons_self _ _))
end

/- Totality of generation on well-formed trees: when the wf check accepts
a node against the current locals and destination flag, generation
succeeds and the locals list afterwards is the one wf computed. Proved by
mutual structural induction. -/
mutual
theorem genNode_total (nd : Node) :
    ∀ (g : CodeGen) (ls2 : List String),
      wf nd g.locals g.lhs.isSome = some ls2 →
      ∃ g', genNode nd g = .ok g' ∧ g'.locals = ls2 := by
  cases nd with
  | con value =>
    intro g ls2 hwf
    simp only [wf] at hwf
    injection hwf with hwf
    cases hf : firstIdx (fun c => veq c value) g.consts with
    | some i =>
      exact ⟨{ g with stack := .constRef (-(i : Int) - 1) :: g.stack },
        by simp only [genNode, hf], hwf⟩
    | none =>
      exact ⟨{ g with
                 consts := g.consts ++ [value],
                 stack := .constRef (-(g.consts.length : Int) - 1) :: g.stack },
        by simp only [genNode, hf], hwf⟩
  | vari name =>
    intro g ls2 hwf
    simp only [wf] at hwf
    cases hf : firstIdx (fun x => x == name) g.locals with
    | none => rw [hf] at hwf; simp at hwf
    | some i =>
      rw [hf] at hwf
      simp only [] at hwf
      injection hwf with hwf
      exact ⟨{ g with stack := .locIdx i :: g.stack }, by simp only [genNode, hf], hwf⟩
  | add lhs rhs =>
    intro g ls2 hwf
    simp only [wf] at hwf
    cases hdest : g.lhs with
    | none => simp [hdest] at hwf
    | some d =>
      rw [hdest] at hwf
      simp only [Option.isSome_some, if_true] at hwf
      cases hw1 : wf lhs g.locals true with
      | none => rw [hw1] at hwf; simp at hwf
      | some ls1 =>
        rw [hw1] at hwf
        simp only [] at hwf
        obtain ⟨g1, hg1, hloc1⟩ := genNode_total lhs g ls1 (by rw [hdest]; exact hw1)
        obtain ⟨E1, ⟨l0, hpush1⟩, _⟩ := genNode_sound lhs g g1 hg1
        have hlh1 : g1.lhs = some d := E1.lhs_eq.trans hdest
        obtain ⟨g4, hg4, hloc4⟩ := genNode_total rhs
          { g1 with stack := g.stack, tempCount := g1.tempCount + 1,
                    lhs := some (.temp g1.tempCount) } ls2 (by
            show wf rhs g1.locals true = some ls2
            rw [hloc1]
            exact hwf)
        obtain ⟨E4, ⟨r0, hpush4⟩, _⟩ := genNode_sound rhs _ g4 hg4
        refine ⟨{ CodeGen.emit { g4 with stack := g.stack, lhs := some d } (.addi d l0 r0) with
                  stack := d :: (CodeGen.emit { g4 with stack := g.stack, lhs := some d }
                    (.addi d l0 r0)).stack,
                  tempCount := (CodeGen.emit { g4 with stack := g.stack, lhs := some d }
                    (.addi d l0 r0)).tempCount - 1 }, ?_, ?_⟩
        · simp only [genNode, hg1, hpush1, hg4, hpush4, hlh1]
        · show g4.locals = ls2
          exact hloc4
  | leti name value =>
    intro g ls2 hwf
    simp only [wf] at hwf
    cases hf : firstIdx (fun x => x == name) g.locals with
    | some i => rw [hf] at hwf; simp at hwf
    | none =>
      rw [hf] at hwf
      simp only [] at hwf
      obtain ⟨g2, hg2, hloc2⟩ := genNode_total value
        { g with locals := g.locals ++ [name],
                 lhs := some (.locIdx g.locals.length) } ls2 hwf
      obtain ⟨E2, ⟨v0, hpush⟩, _⟩ := genNode_sound value _ g2 hg2
      obtain ⟨sC, sL, _, _, _, _, _, _⟩ :=
        assignEmit_sound g.locals.length v0 { g2 with stack := g.stack }
      refine ⟨{ assignEmit g.locals.length v0 { g2 with stack := g.stack } with
                stack := .locIdx g.locals.length ::
                  (assignEmit g.locals.length v0 { g2 with stack := g.stack }).stack,
                lhs := g.lhs }, ?_, ?_⟩
      · simp only [genNode, hf, hg2, hpush]
      · exact (sL : (assignEmit g.locals.length v0 { g2 with stack := g.stack }).locals
          = g2.locals).trans hloc2
  | set name value =>
    intro g ls2 hwf
    simp only [wf] at hwf
    cases hf : firstIdx (fun x => x == name) g.locals with
    | none => rw [hf] at hwf; simp at hwf
    | some i =>
      rw [hf] at hwf
      simp only [] at hwf
      obtain ⟨g2, hg2, hloc2⟩ := genNode_total value { g with lhs := some (.locIdx i) } ls2 hwf
      obtain ⟨E2, ⟨v0, hpush⟩, _⟩ := genNode_sound value _ g2 hg2
      obtain ⟨sC, sL, _, _, _, _, _, _⟩ :=
        assignEmit_sound i v0 { g2 with stack := g.stack }
      refine ⟨{ assignEmit i v0 { g2 with stack := g.stack } with
                stack := .locIdx i :: (assignEmit i v0 { g2 with stack := g.stack }).stack,
                lhs := g.lhs }, ?_, ?_⟩
      · simp only [genNode, hf, hg2, hpush]
      · exact (sL : (assignEmit i v0 { g2 with stack := g.stack }).locals
          = g2.locals).trans hloc2
  | block body =>
    cases body with
    | nil => intro g ls2 hwf; simp [wf] at hwf
    | cons e rest =>
      intro g ls2 hwf
      simp only [wf] at hwf
      cases hw1 : wf e g.locals g.lhs.isSome with
      | none => rw [hw1] at hwf; simp at hwf
      | some ls1 =>
        rw [hw1] at hwf
        simp only [] at hwf
        obtain ⟨g1, hg1, hloc1⟩ := genNode_total e g ls1 hw1
        obtain ⟨E1, ⟨v0, hpush⟩, _⟩ := genNode_sound e g g1 hg1
        obtain ⟨vr, g2, hg2, hloc2⟩ := genSeq_total rest v0 { g1 with stack := g.stack } ls2 (by
          show wfSeq rest g1.locals g1.lhs.isSome = some ls2
          rw [hloc1, E1.lhs_eq]
          exact hwf)
        refine ⟨{ g2 with stack := vr :: g2.stack }, ?_, ?_⟩
        · simp only [genNode, hg1, hpush, hg2]
        · exact hloc2

theorem genSeq_total (body : NodeList) :
    ∀ (v : Loc) (g : CodeGen) (ls2 : List String),
      wfSeq body g.locals g.lhs.isSome = some ls2 →
      ∃ vr g', genSeq body v g = .ok (vr, g') ∧ g'.locals = ls2 := by
  cases body with
  | nil =>
    intro v g ls2 hwf
    simp only [wfSeq] at hwf
    injection hwf with hwf
    exact ⟨v, g, by simp only [genSeq], hwf⟩
  | cons e rest =>
    intro v g ls2 hwf
    simp only [wfSeq] at hwf
    cases hw1 : wf e g.locals g.lhs.isSome with
    | none => rw [hw1] at hwf; simp at hwf
    | some ls1 =>
      rw [hw1] at hwf
      simp only [] at hwf
      obtain ⟨g1, hg1, hloc1⟩ := genNode_total e g ls1 hw1
      obtain ⟨E1, ⟨v0, hpush⟩, _⟩ := genNode_sound e g g1 hg1
      obtain ⟨vr, g2, hg2, hloc2⟩ := genSeq_total rest v0 { g1 with stack := g.stack } ls2 (by
        show wfSeq rest g1.locals g1.lhs.isSome = some ls2
        rw [hloc1, E1.lhs_eq]
        exact hwf)
      refine ⟨vr, g2, ?_, hloc2⟩
      simp only [genSeq, hg1, hpush, hg2]
end

/-! Lemmas about the VM side. -/

/-- A successful setLocal only rewrites the register file. -/
theorem setLocal_ok_fields (vm vm1 : VM) (i : Int) (v : Option Value)
    (h : vm.setLocal i v = .ok vm1) : vm1.pc = vm.pc ∧ vm1.fn = vm.fn := by
  unfold VM.setLocal at h
  cases ht : vm.testRegIndex i with
  | error e => rw [ht] at h; simp at h
  | ok u =>
    rw [ht] at h
    simp only [] at h
    injection h with h
    rw [← h]
    exact ⟨rfl, rfl⟩

/-- A successful instruction run advances the counter by exactly one and
keeps the frame. -/
theorem run_ok_pc (vm vm' : VM) (ins : Instr) (h : ins.run vm = (vm', none)) :
    vm'.pc = vm.pc + 1 ∧ vm'.fn = vm.fn := by
  cases ins with
  | iMOVE a b =>
    simp only [Instr.run] at h
    cases hb : vm.getVal b with
    | error e => rw [hb] at h; simp at h
    | ok v =>
      rw [hb] at h
      simp only [] at h
      cases hs : vm.setLocal a v with
      | error e => rw [hs] at h; simp at h
      | ok vm1 =>
        rw [hs] at h
        simp only [Prod.mk.injEq] at h
        obtain ⟨h1, _⟩ := h
        obtain ⟨hp, hf⟩ := setLocal_ok_fields vm vm1 a v hs
        rw [← h1]
        exact ⟨by rw [hp], hf⟩
  | iLOADK a k =>
    simp only [Instr.run] at h
    cases hb : vm.getConst k with
    | error e => rw [hb] at h; simp at h
    | ok v =>
      rw [hb] at h
      simp only [] at h
      cases hs : vm.setLocal a (some v) with
      | error e => rw [hs] at h; simp at h
      | ok vm1 =>
        rw [hs] at h
        simp only [Prod.mk.injEq] at h
        obtain ⟨h1, _⟩ := h
        obtain ⟨hp, hf⟩ := setLocal_ok_fields vm vm1 a (some v) hs
        rw [← h1]
        exact ⟨by rw [hp], hf⟩
  | iADD a b c =>
    simp only [Instr.run] at h
    cases hb : vm.getVal b with
    | error e => rw [hb] at h; simp at h
    | ok vb =>
      rw [hb] at h
      simp only [] at h
      cases hc : vm.getVal c with
      | error e => rw [hc] at h; simp at h
      | ok vc =>
        rw [hc] at h
        simp only [] at h
        cases hkb : checkNum vb with
        | error e => rw [hkb] at h; simp at h
        | ok xb =>
          rw [hkb] at h
          simp only [] at h
          cases hkc : checkNum vc with
          | error e => rw [hkc] at h; simp at h
          | ok xc =>
            rw [hkc] at h
            simp only [] at h
            cases hs : vm.setLocal a
                (some (.num ((vb.getD .nil).numValue + (vc.getD .nil).numValue))) with
            | error e => rw [hs] at h; simp at h
            | ok vm1 =>
              rw [hs] at h
              simp only [Prod.mk.injEq] at h
              obtain ⟨h1, _⟩ := h
              obtain ⟨hp, hf⟩ := setLocal_ok_fields vm vm1 a _ hs
              rw [← h1]
              exact ⟨by rw [hp], hf⟩

/-- A step that returned true advanced the counter by one inside the same
frame, starting from a counter holding an instruction. -/
theorem step_stepped (vm vm' : VM) (h : vm.step = .stepped vm') :
    vm'.pc = vm.pc + 1 ∧ vm'.fn = vm.fn ∧ vm.pc < vm.fn.code.length := by
  unfold VM.step at h
  cases hg : vm.fn.getInstr vm.pc with
  | none => rw [hg] at h; simp at h
  | some ins =>
    rw [hg] at h
    simp only [] at h
    have hlt : vm.pc < vm.fn.code.length := by
      unfold Frame.getInstr at hg
      by_cases hc : vm.fn.code.length ≤ vm.pc
      · rw [if_pos hc] at hg; cases hg
      · omega
    cases hr : ins.run vm with
    | mk vm1 eo =>
      rw [hr] at h
      cases eo with
      | none =>
        simp only [] at h
        injection h with h
        obtain ⟨hp, hf⟩ := run_ok_pc vm vm1 ins hr
        rw [← h]
        exact ⟨hp, hf, hlt⟩
      | some e => simp only [] at h; cases h

/-- After k steps that all returned true, the counter has advanced by k
inside the same frame. -/
theorem iterOk_pc (n : Nat) : ∀ (vm vmn : VM), vm.iterOk n = some vmn →
    vmn.pc = vm.pc + n ∧ vmn.fn = vm.fn := by
  induction n with
  | zero =>
    intro vm vmn h
    simp only [VM.iterOk] at h
    injection h with h
    rw [← h]
    exact ⟨rfl, rfl⟩
  | succ n ih =>
    intro vm vmn h
    simp only [VM.iterOk] at h
    cases hs : vm.step with
    | stepped vm1 =>
      rw [hs] at h
      simp only [] at h
      obtain ⟨hp1, hf1, _⟩ := step_stepped vm vm1 hs
      obtain ⟨hp, hf⟩ := ih vm1 vmn h
      constructor
      · rw [hp, hp1]; omega
      · rw [hf, hf1]
    | halted => rw [hs] at h; simp at h
    | failed v e => rw [hs] at h; simp at h

/-- Unfolding one step at the front of an iteration. -/
theorem iterOk_bind (vm : VM) (n : Nat) :
    vm.iterOk (n + 1) = (stepOnce vm).bind (fun v1 => v1.iterOk n) := by
  cases hs : vm.step with
  | stepped v1 => simp [VM.iterOk, stepOnce, hs]
  | halted => simp [VM.iterOk, stepOnce, hs]
  | failed v e => simp [VM.iterOk, stepOnce, hs]

/-- Unfolding one step at the end of an iteration instead of the front. -/
theorem iterOk_succ_right (n : Nat) : ∀ (vm : VM),
    vm.iterOk (n + 1) = (vm.iterOk n).bind stepOnce := by
  induction n with
  | zero =>
    intro vm
    rw [iterOk_bind]
    cases h : stepOnce vm <;> simp [VM.iterOk, h]
  | succ n ih =>
    intro vm
    rw [iterOk_bind vm (n + 1)]
    rw [iterOk_bind vm n]
    rw [Option.bind_assoc]
    simp only [ih]

/-- One-step unfolding of generation at a nonempty block. -/
theorem genNode_block_cons (e : Node) (rest : NodeList) (g : CodeGen) :
    genNode (.block (.cons e rest)) g
      = match genNode e g with
        | .error err => .error err
        | .ok g1 =>
          match g1.stack with
          | [] => .error .popUndef
          | v :: st =>
            match genSeq rest v { g1 with stack := st } with
            | .error err => .error err
            | .ok (result, g2) => .ok { g2 with stack := result :: g2.stack } := by
  simp only [genNode]

/-- One-step unfolding of the block loop. -/
theorem genSeq_cons (e : Node) (rest : NodeList) (v : Loc) (g : CodeGen) :
    genSeq (.cons e rest) v g
      = match genNode e g with
        | .error err => .error err
        | .ok g1 =>
          match g1.stack with
          | [] => .error .popUndef
          | v2 :: st => genSeq rest v2 { g1 with stack := st } := by
  simp only [genSeq]

/-! Corollaries at the compile entry point. -/

/-- The fresh generator state satisfies the invariant. -/
theorem goodGen_init : GoodGen CodeGen.init := by
  refine ⟨?_, ?_, ?_, ?_, ?_, ?_⟩ <;> simp [CodeGen.init, codeMax]

/-- A successful compile comes from a successful walk over a fresh
generator whose final state satisfies the invariant. -/
theorem compile_ok_inv (nd : Node) (fr : Frame) (h : compile nd = .ok fr) :
    ∃ g, genNode nd CodeGen.init = .ok g ∧ fr = g.mkFrame ∧ GoodGen g := by
  unfold compile at h
  cases hg : genNode nd CodeGen.init with
  | error e => rw [hg] at h; simp [Except.map] at h
  | ok g =>
    rw [hg] at h
    simp only [Except.map, Except.ok.injEq] at h
    obtain ⟨_, _, good⟩ := genNode_sound nd CodeGen.init g hg
    exact ⟨g, rfl, h.symm, good goodGen_init⟩

/-- A successful let declaration records its name among the locals. -/
theorem leti_locals_mem (n : String) (v : Node) (g g' : CodeGen)
    (h : genNode (.leti n v) g = .ok g') : n ∈ g'.locals := by
  simp only [genNode] at h
  cases hf : firstIdx (fun x => x == n) g.locals with
  | some i => rw [hf] at h; simp at h
  | none =>
    rw [hf] at h
    simp only [] at h
    cases hv : genNode v { g with locals := g.locals ++ [n],
                                  lhs := some (.locIdx g.locals.length) } with
    | error e => rw [hv] at h; simp at h
    | ok g2 =>
      rw [hv] at h
      simp only [] at h
      obtain ⟨E2, _, _⟩ := genNode_sound v _ g2 hv
      obtain ⟨t, ht⟩ := E2.locals_ext
      have ht2 : g2.locals = (g.locals ++ [n]) ++ t := ht
      cases hst : g2.stack with
      | nil => rw [hst] at h; simp at h
      | cons v0 st =>
        rw [hst] at h
        simp only [] at h
        injection h with h
        obtain ⟨_, sL, _, _, _, _, _, _⟩ :=
          assignEmit_sound g.locals.length v0 { g2 with stack := st }
        rw [← h]
        show n ∈ (assignEmit g.locals.length v0 { g2 with stack := st }).locals
        rw [(sL : _ = ({ g2 with stack := st }).locals), ht2]
        simp

/-! Claim theorems. -/

/-- C1 counterexample: two trees without duplicate Let names and without
any Var or Set reference nevertheless make compile fail, so the claim as
stated is false. A bare Add has no destination register (the generator lhs
is still null when its ADD is emitted, and emit throws reading a property
of null), and an empty Block is rejected outright. -/
theorem c1_counterexample :
    compile (.add (.con (.num 2)) (.con (.num 2))) = .error .nullOperand ∧
    compile (.block .nil) = .error .emptyBlock := by decide

/-- C1 (amended): for every AST tree accepted by the wf check - no
duplicate Let names, no undefined Var or Set reference, no empty Block,
and every Add inside a destination context - compile succeeds and returns
the frame packaged from the final generator state: its register-file size
is the number of declared locals plus the peak number of temporary
registers the emitted code references, and its constant pool and
instruction sequence are exactly the accumulated ones. -/
theorem c1_compile_wf (nd : Node) (ls : List String) (h : wf nd [] false = some ls) :
    ∃ g, genNode nd CodeGen.init = .ok g ∧
      compile nd = .ok g.mkFrame ∧
      g.mkFrame.size = g.locals.length + peakTemps g.code ∧
      g.mkFrame.consts = g.consts ∧
      g.mkFrame.code = g.code.map (EmitEntry.finalize g.locals.length) := by
  have h0 : wf nd CodeGen.init.locals CodeGen.init.lhs.isSome = some ls := h
  obtain ⟨g, hg, _⟩ := genNode_total nd CodeGen.init ls h0
  obtain ⟨_, _, good⟩ := genNode_sound nd CodeGen.init g hg
  have hgood := good goodGen_init
  refine ⟨g, hg, ?_, ?_, rfl, rfl⟩
  · unfold compile
    rw [hg]
    rfl
  · show ((g.locals.length : Int) + g.maxTemp + 1).toNat
      = g.locals.length + peakTemps g.code
    have hlb : -1 ≤ codeMax g.code := hgood.maxTemp_sync ▸ hgood.maxTemp_lb
    rw [hgood.maxTemp_sync]
    unfold peakTemps
    omega

/-- C1 witness at the example program. -/
theorem c1_witness :
    ∃ g, genNode astC2 CodeGen.init = .ok g ∧
      compile astC2 = .ok g.mkFrame ∧
      g.mkFrame.size = g.locals.length + peakTemps g.code ∧
      g.mkFrame.consts = g.consts ∧
      g.mkFrame.code = g.code.map (EmitEntry.finalize g.locals.length) :=
  c1_compile_wf astC2 ["a", "b"] (by decide)

/-- C2: compiling Block([Let(a, Add(Constant(2), Constant(2))),
Let(b, Add(Constant(3), Var(a)))]) and stepping a fresh VM until step()
returns false (two steps return true, the next call halts) leaves the
register bound to local a (register 0) holding Number 4 and the register
bound to local b (register 1) holding Number 7. -/
theorem c2_execution :
    compile astC2 = .ok frC2 ∧ frC2.locals = ["a", "b"] ∧
    (VM.new frC2).iterOk 2 = some vmC2 ∧ vmC2.step = .halted ∧
    vmC2.regs.getD 0 none = some (.num 4) ∧
    vmC2.regs.getD 1 none = some (.num 7) := by decide

/-- C3: over a frame with n instructions, if the first n step() calls all
return true (no runtime error), then the counter has reached n, the next
step() returns false, and a run of n + 1 successful steps is impossible,
so step() returns true exactly n times and false on every later call. -/
theorem c3_vm_halting (fr : Frame) (vmN : VM)
    (h : (VM.new fr).iterOk fr.code.length = some vmN) :
    vmN.pc = fr.code.length ∧ vmN.step = .halted ∧
    (VM.new fr).iterOk (fr.code.length + 1) = none := by
  obtain ⟨hp, hf⟩ := iterOk_pc fr.code.length (VM.new fr) vmN h
  have hpc : vmN.pc = fr.code.length := by rw [hp]; simp [VM.new]
  have hfn : vmN.fn = fr := hf
  have hstep : vmN.step = .halted := by
    unfold VM.step
    have hgi : vmN.fn.getInstr vmN.pc = none := by
      unfold Frame.getInstr
      rw [if_pos]
      rw [hfn, hpc]
    rw [hgi]
  refine ⟨hpc, hstep, ?_⟩
  rw [iterOk_succ_right, h]
  simp [stepOnce, hstep]

/-- C3 witness at a one-instruction frame. -/
theorem c3_witness :
    vmW3.pc = frW3.code.length ∧ vmW3.step = .halted ∧
    (VM.new frW3).iterOk (frW3.code.length + 1) = none :=
  c3_vm_halting frW3 vmW3 (by decide)

/-- C4: the constant pool of every successfully compiled frame holds no
two structurally equal values, and generating a Constant whose value
already has a pool entry (found by the linear veq scan) appends nothing
and pushes a reference to that shared entry. -/
theorem c4_constant_dedup :
    (∀ (nd : Node) (fr : Frame), compile nd = .ok fr →
      fr.consts.Pairwise (fun a b => veq a b = false)) ∧
    (∀ (g : CodeGen) (v : Value) (i : Nat),
      firstIdx (fun c => veq c v) g.consts = some i →
      genNode (.con v) g = .ok { g with stack := .constRef (-(i : Int) - 1) :: g.stack }) := by
  constructor
  · intro nd fr h
    obtain ⟨g, hg, hfr, hgood⟩ := compile_ok_inv nd fr h
    rw [hfr]
    exact hgood.consts_nodup
  · intro g v i hf
    simp only [genNode, hf]

/-- C4 witness: the example frame with duplicated source constants has a
single pool entry, and a found constant is shared. -/
theorem c4_witness :
    frW4.consts.Pairwise (fun a b => veq a b = false) ∧
    genNode (.con (.num 7)) gW4
      = .ok { gW4 with stack := .constRef (-(0 : Int) - 1) :: gW4.stack } :=
  ⟨c4_constant_dedup.1 astW4 frW4 (by decide),
   c4_constant_dedup.2 gW4 (.num 7) 0 (by decide)⟩

/-- C5: executing ADD reads both source operand references; when either
resolved operand is a Boolean or Nil value the step fails with a type
error carrying that non-Number value and performs no coercion and no
state change; when both are Numbers their integer sum is stored as a new
Number into the destination register and the counter advances. -/
theorem c5_add_typecheck (vm : VM) (a b c : Int) (vb vc : Value)
    (hb : vm.getVal b = .ok (some vb)) (hc : vm.getVal c = .ok (some vc)) :
    (vb.isNum = false ∨ vc.isNum = false →
      ∃ x : Value, x.isNum = false ∧
        Instr.run vm (.iADD a b c) = (vm, some (.typeError x))) ∧
    (∀ nb nc : Int, vb = .num nb → vc = .num nc →
      ∀ vm1 : VM, vm.setLocal a (some (.num (nb + nc))) = .ok vm1 →
        Instr.run vm (.iADD a b c) = ({ vm1 with pc := vm1.pc + 1 }, none)) := by
  constructor
  · intro hno
    cases vb with
    | num n1 =>
      cases vc with
      | num n2 => rcases hno with h1 | h1 <;> simp [Value.isNum] at h1
      | bool x => exact ⟨.bool x, rfl, by simp [Instr.run, hb, hc, checkNum]⟩
      | nil => exact ⟨.nil, rfl, by simp [Instr.run, hb, hc, checkNum]⟩
    | bool x => exact ⟨.bool x, rfl, by simp [Instr.run, hb, hc, checkNum]⟩
    | nil => exact ⟨.nil, rfl, by simp [Instr.run, hb, hc, checkNum]⟩
  · intro nb nc hvb hvc vm1 hset
    subst hvb
    subst hvc
    simp [Instr.run, hb, hc, checkNum, Value.numValue, hset]

/-- C5 witness: ADD over a Boolean constant operand fails with a type
error and leaves the VM untouched. -/
theorem c5_witness :
    ∃ x : Value, x.isNum = false ∧
      Instr.run vmW5 (.iADD 0 (-1) (-2)) = (vmW5, some (.typeError x)) :=
  (c5_add_typecheck vmW5 0 (-1) (-2) (.bool true) (.num 1) (by decide) (by decide)).1
    (Or.inl (by decide))

/-- C6: resolving an operand reference dispatches on sign. A non-negative
reference reads the register file and fails fatally (never clamps) when it
is not below the frame's declared size; a negative reference decodes to
constant index -i - 1 and fails fatally when that index is not below the
pool length, otherwise it reads that pool entry. -/
theorem c6_operand_dispatch (vm : VM) (i : Int) :
    (0 ≤ i ∧ i < (vm.fn.size : Int) →
      vm.getVal i = .ok (vm.regs.getD i.toNat none)) ∧
    (0 ≤ i ∧ (vm.fn.size : Int) ≤ i →
      vm.getVal i = .error (.invalidRegIndex i)) ∧
    (i < 0 ∧ -i - 1 < (vm.fn.consts.length : Int) →
      vm.getVal i = .ok (some (vm.fn.consts.getD (-i - 1).toNat Value.nil))) ∧
    (i < 0 ∧ (vm.fn.consts.length : Int) ≤ -i - 1 →
      vm.getVal i = .error (.invalidConstIndex i)) := by
  refine ⟨?_, ?_, ?_, ?_⟩
  · rintro ⟨h1, h2⟩
    have hreg : vm.testRegIndex i = .ok () := by
      unfold VM.testRegIndex
      rw [if_neg (by omega)]
    unfold VM.getVal VM.getLocal
    rw [if_neg (by omega), hreg]
  · rintro ⟨h1, h2⟩
    have hreg : vm.testRegIndex i = .error (.invalidRegIndex i) := by
      unfold VM.testRegIndex
      rw [if_pos (by omega)]
    unfold VM.getVal VM.getLocal
    rw [if_neg (by omega), hreg]
  · rintro ⟨h1, h2⟩
    have hcst : vm.testConstIndex i = .ok () := by
      unfold VM.testConstIndex
      rw [if_neg (by omega)]
    unfold VM.getVal VM.getConst
    rw [if_pos (by omega), hcst]
    rfl
  · rintro ⟨h1, h2⟩
    have hcst : vm.testConstIndex i = .error (.invalidConstIndex i) := by
      unfold VM.testConstIndex
      rw [if_pos (by omega)]
    unfold VM.getVal VM.getConst
    rw [if_pos (by omega), hcst]
    rfl

/-- C6 witness: all four dispatch and bounds outcomes on a concrete VM. -/
theorem c6_witness :
    vmW6.getVal 0 = .ok (vmW6.regs.getD (0 : Int).toNat none) ∧
    vmW6.getVal 5 = .error (.invalidRegIndex 5) ∧
    vmW6.getVal (-1) = .ok (some (vmW6.fn.consts.getD (-(-1 : Int) - 1).toNat Value.nil)) ∧
    vmW6.getVal (-9) = .error (.invalidConstIndex (-9)) :=
  ⟨(c6_operand_dispatch vmW6 0).1 (by decide),
   (c6_operand_dispatch vmW6 5).2.1 (by decide),
   (c6_operand_dispatch vmW6 (-1)).2.2.1 (by decide),
   (c6_operand_dispatch vmW6 (-9)).2.2.2 (by decide)⟩

/-- C7: a block that declares the same name twice fails the whole
compilation call with the duplicate-declaration error (assuming the first
declaration itself compiled, so no earlier error preempts it); no frame
is returned and the second binding never happens silently. -/
theorem c7_duplicate_let (n : String) (v1 v2 : Node) (rest : NodeList) (g1 : CodeGen)
    (h : genNode (.leti n v1) CodeGen.init = .ok g1) :
    compile (.block (.cons (.leti n v1) (.cons (.leti n v2) rest)))
      = .error (.alreadyDefined n) := by
  have hmem := leti_locals_mem n v1 CodeGen.init g1 h
  obtain ⟨j, hj⟩ :=
    @firstIdx_some_of_mem String (fun x => x == n) n g1.locals hmem (by simp)
  obtain ⟨E1, ⟨v0, hpush⟩, _⟩ := genNode_sound (.leti n v1) CodeGen.init g1 h
  have hpush' : g1.stack = [v0] := hpush
  have hfail : genNode (.leti n v2) { g1 with stack := [] }
      = .error (.alreadyDefined n) := by
    simp only [genNode, hj]
  unfold compile
  rw [genNode_block_cons, h]
  simp only []
  rw [hpush']
  simp only []
  rw [genSeq_cons, hfail]
  rfl

/-- C7 witness at Block([Let(a, 1), Let(a, 2)]). -/
theorem c7_witness :
    compile (.block (.cons (.leti "a" (.con (.num 1)))
      (.cons (.leti "a" (.con (.num 2))) .nil))) = .error (.alreadyDefined "a") :=
  c7_duplicate_let "a" (.con (.num 1)) (.con (.num 2)) .nil g1W7 (by decide)

/-- C8: in every frame a successful compile returns, every non-negative
operand of every instruction is strictly below the frame's declared
register-file size, and every negative operand decodes (as -op - 1) to a
position strictly below the constant pool length, so the VM bounds checks
cannot fire on generated code. -/
theorem c8_emitted_bounds (nd : Node) (fr : Frame) (h : compile nd = .ok fr) :
    ∀ ins ∈ fr.code, ∀ op ∈ ins.operands,
      (0 ≤ op → op < (fr.size : Int)) ∧
      (op < 0 → 0 ≤ -op - 1 ∧ -op - 1 < (fr.consts.length : Int)) := by
  obtain ⟨g, hg, hfr, hgood⟩ := compile_ok_inv nd fr h
  subst hfr
  intro ins hins op hop
  have hins' : ins ∈ g.code.map (EmitEntry.finalize g.locals.length) := hins
  rcases List.mem_map.mp hins' with ⟨e, he, rfl⟩
  have hops : (EmitEntry.finalize g.locals.length e).operands
      = e.args.map (mapArg g.locals.length) := by
    cases e <;> rfl
  rw [hops] at hop
  rcases List.mem_map.mp hop with ⟨l, hl, rfl⟩
  have hle := hgood.code_ok e he l hl
  have hmt := hgood.maxTemp_lb
  have hsz : ((CodeGen.mkFrame g).size : Int)
      = (((g.locals.length : Int) + g.maxTemp + 1).toNat : Int) := rfl
  have hcs : (CodeGen.mkFrame g).consts = g.consts := rfl
  cases l with
  | temp i =>
    have hi : (i : Int) ≤ g.maxTemp := hle
    constructor
    · intro _
      show (i : Int) + g.locals.length < ((CodeGen.mkFrame g).size : Int)
      rw [hsz]
      omega
    · intro hneg
      exfalso
      have : (0 : Int) ≤ (i : Int) + g.locals.length := by positivity
      have hneg' : (i : Int) + (g.locals.length : Int) < 0 := hneg
      omega
  | locIdx i =>
    have hi : i < g.locals.length := hle
    constructor
    · intro _
      show (i : Int) < ((CodeGen.mkFrame g).size : Int)
      rw [hsz]
      omega
    · intro hneg
      exfalso
      have hneg' : (i : Int) < 0 := hneg
      omega
  | constRef v =>
    have hv : ∃ k : Nat, k < g.consts.length ∧ v = -(k : Int) - 1 := hle
    obtain ⟨k, hk, rfl⟩ := hv
    constructor
    · intro hpos
      exfalso
      have : (0 : Int) ≤ -(k : Int) - 1 := hpos
      omega
    · intro _
      rw [hcs]
      show 0 ≤ -(-(k : Int) - 1) - 1 ∧ -(-(k : Int) - 1) - 1 < (g.consts.length : Int)
      constructor <;> omega

/-- C8 witness at a concrete compiled frame. -/
theorem c8_witness :
    (0 ≤ (0 : Int) → (0 : Int) < (frW8.size : Int)) ∧
    ((0 : Int) < 0 → 0 ≤ -(0 : Int) - 1 ∧ -(0 : Int) - 1 < (frW8.consts.length : Int)) :=
  c8_emitted_bounds astW8 frW8 (by decide) (.iADD 0 (-1) (-1)) (by decide) 0 (by decide)

/-- C9 counterexample: the register file of a fresh VM is filled with the
JS null marker (modelled as Option.none), not with the Nil runtime value,
so the claim that every slot is initialized to the Nil value is false at
this one-slot frame. -/
theorem c9_counterexample :
    ¬ (VM.new frC9).regs = List.replicate frC9.size (some Value.nil) := by decide

/-- C9 (amended): a freshly constructed VM has a register file of exactly
the frame's declared size in which every slot holds the empty null marker
(no Value at all), which is distinct from the Nil value. -/
theorem c9_register_init (fr : Frame) :
    (VM.new fr).regs.length = fr.size ∧
    (VM.new fr).regs = List.replicate fr.size none ∧
    (none : Option Value) ≠ some Value.nil := by
  refine ⟨?_, rfl, by simp⟩
  simp [VM.new]

/-- C10: when a step executing ADD fails - an operand reference out of
bounds, or an operand resolving to a non-Number - the error is raised
before any register write and before the counter advances, so the state
at the throw has exactly the original register file and counter. -/
theorem c10_add_error_state (vm vm1 : VM) (a b c : Int) (e : VMError)
    (h : Instr.run vm (.iADD a b c) = (vm1, some e)) :
    vm1.regs = vm.regs ∧ vm1.pc = vm.pc := by
  simp only [Instr.run] at h
  cases hb : vm.getVal b with
  | error e2 =>
    rw [hb] at h
    simp only [Prod.mk.injEq] at h
    rw [← h.1]
    exact ⟨rfl, rfl⟩
  | ok vb =>
    rw [hb] at h
    simp only [] at h
    cases hc : vm.getVal c with
    | error e2 =>
      rw [hc] at h
      simp only [Prod.mk.injEq] at h
      rw [← h.1]
      exact ⟨rfl, rfl⟩
    | ok vc =>
      rw [hc] at h
      simp only [] at h
      cases hkb : checkNum vb with
      | error e2 =>
        rw [hkb] at h
        simp only [Prod.mk.injEq] at h
        rw [← h.1]
        exact ⟨rfl, rfl⟩
      | ok xb =>
        rw [hkb] at h
        simp only [] at h
        cases hkc : checkNum vc with
        | error e2 =>
          rw [hkc] at h
          simp only [Prod.mk.injEq] at h
          rw [← h.1]
          exact ⟨rfl, rfl⟩
        | ok xc =>
          rw [hkc] at h
          simp only [] at h
          cases hs : vm.setLocal a
              (some (.num ((vb.getD .nil).numValue + (vc.getD .nil).numValue))) with
          | error e2 =>
            rw [hs] at h
            simp only [Prod.mk.injEq] at h
            rw [← h.1]
            exact ⟨rfl, rfl⟩
          | ok vmx =>
            rw [hs] at h
            simp only [Prod.mk.injEq] at h
            exact absurd h.2 (by simp)

/-- C10 witness: a failing ADD leaves the state of vmW10 untouched. -/
theorem c10_witness : vmW10.regs = vmW10.regs ∧ vmW10.pc = vmW10.pc :=
  c10_add_error_state vmW10 vmW10 0 (-1) (-1) (.typeError (.bool false)) (by decide)

end Lilua